import Mathlib

/-!
Shallow embedding of the core of the `carlhuda/cargo` excerpt:

* `src/cargo/core/summary.rs` — the `Summary` entity and its
  construction-time validation (`Summary::new`), plus its `PartialEq`.
* `src/cargo/sources/path.rs` — `PathSource`: `update`, `query`, `get`,
  `list_files` (both the git-aware listing and the plain directory walk)
  and `fingerprint`.
* `src/cargo/util/toml/manifest_cache.rs` — `parse_manifest`, the
  per-directory manifest cache.

Paths are modelled as lists of components (`List String`); the filesystem
as a finite tree; machine integers as `Nat`; fallible Rust functions
(`CargoResult`) as `Except String`.  Rust `HashMap`s that the code only
iterates or looks up are modelled as association lists.
-/

/-- PackageId (external collaborator): identity is (name, version, source-id);
equality is by all three fields. -/
structure PackageId where
  name : String
  version : Nat × Nat × Nat
  source_id : Nat
deriving DecidableEq, Repr

/-- Rust `==` on PackageId: equality of all three fields. -/
instance : BEq PackageId := ⟨fun a b => decide (a = b)⟩

theorem packageId_beq_iff (a b : PackageId) : (a == b) = true ↔ a = b := by
  constructor
  · intro h; exact of_decide_eq_true h
  · intro h; exact decide_eq_true h

/-- Version requirement carried by a Dependency.
Modelled from the spec: the version constraint of a Dependency is external
(src does not contain its definition); the spec only requires that a
dependency carries a constraint that concrete versions match or not. -/
inductive VersionReq where
  | wildcard
  | exact (v : Nat × Nat × Nat)
deriving DecidableEq, Repr

/-- Modelled from the spec: whether a concrete version satisfies the
constraint. -/
def VersionReq.matchesVer : VersionReq → (Nat × Nat × Nat) → Bool
  | .wildcard, _ => true
  | .exact v, w => v == w

/-- Dependency (external collaborator): name, version constraint, and the
`is_optional` / `is_transitive` flags (dev-only dependencies are
non-transitive). -/
structure Dependency where
  name : String
  is_optional : Bool
  is_transitive : Bool
  req : VersionReq
deriving DecidableEq, Repr

/-- Feature: ordered dependency tokens (either `name` or the reexport form
`name/feature`) plus implied sub-feature names. -/
structure Feature where
  dependencies : List String
  features : List String
deriving DecidableEq, Repr

/-- Summary: package identity + dependencies + feature map.  The Rust
`HashMap<String, Feature>` is modelled as an association list (the code
only iterates it and looks keys up). -/
structure Summary where
  package_id : PackageId
  dependencies : List Dependency
  features : List (String × Feature)
deriving Repr

/-- First validation loop of `Summary::new` (summary.rs:24-30): reject any
dependency that is both optional and non-transitive. -/
def checkDevDeps : List Dependency → Except String Unit
  | [] => .ok ()
  | d :: rest =>
    if d.is_optional && !d.is_transitive then
      .error ("Dev-dependencies are not allowed to be optional: `" ++ d.name ++ "`")
    else checkDevDeps rest

/-- Inner loop over one feature's dependency tokens (summary.rs:32-51):
split the token on the first `/`; the named dependency must exist, and be
optional unless the token is of reexport form. -/
def checkFeatureDeps (dependencies : List Dependency) (feature : String) :
    List String → Except String Unit
  | [] => .ok ()
  | tok :: rest =>
    let dep := tok.takeWhile (fun c => c != '/')
    let is_reexport := tok.contains '/'
    match dependencies.find? (fun d => d.name == dep) with
    | some d =>
      if d.is_optional || is_reexport then
        checkFeatureDeps dependencies feature rest
      else
        .error ("Feature `" ++ feature ++ "` depends on `" ++ dep ++
          "` which is not an optional dependency. Consider adding `optional = true` to the dependency")
    | none =>
      .error ("Feature `" ++ feature ++ "` requires `" ++ dep ++
        "` which is not a dependency")

/-- Inner loop over one feature's implied sub-features (summary.rs:52-58):
each must be a key of the features map. -/
def checkFeatureSubs (keys : List String) (feature : String) :
    List String → Except String Unit
  | [] => .ok ()
  | sub :: rest =>
    if keys.contains sub then checkFeatureSubs keys feature rest
    else
      .error ("Feature `" ++ feature ++ "` requires `" ++ sub ++
        "` which is not a feature")

/-- Outer loop of `Summary::new` over all features (summary.rs:31-59). -/
def checkFeatures (dependencies : List Dependency) (keys : List String) :
    List (String × Feature) → Except String Unit
  | [] => .ok ()
  | (feature, desc) :: rest =>
    match checkFeatureDeps dependencies feature desc.dependencies with
    | .error e => .error e
    | .ok () =>
      match checkFeatureSubs keys feature desc.features with
      | .error e => .error e
      | .ok () => checkFeatures dependencies keys rest

/-- Summary::new (summary.rs:21-65): validate, then construct. -/
def Summary.new (pkg_id : PackageId) (dependencies : List Dependency)
    (features : List (String × Feature)) : Except String Summary :=
  match checkDevDeps dependencies with
  | .error e => .error e
  | .ok () =>
    match checkFeatures dependencies (features.map Prod.fst) features with
    | .error e => .error e
    | .ok () =>
      .ok { package_id := pkg_id, dependencies := dependencies, features := features }

/-- Summary::override_id (summary.rs:74-77). -/
def Summary.override_id (s : Summary) (id : PackageId) : Summary :=
  { s with package_id := id }

/-- Summary::map_dependencies (summary.rs:79-84). -/
def Summary.map_dependencies (s : Summary) (f : Dependency → Dependency) : Summary :=
  { s with dependencies := s.dependencies.map f }

/-- PartialEq for Summary (summary.rs:87-91): equality is by `package_id`
alone. -/
def Summary.eqSummary (a b : Summary) : Bool :=
  a.package_id == b.package_id

/-- Spec-side characterization of one feature dependency token being
acceptable to `Summary::new`: the dependency found under the token's base
name (the part before the first `/`) must exist and be optional, or the
token must be of reexport form. -/
def tokenOk (dependencies : List Dependency) (tok : String) : Prop :=
  match dependencies.find? (fun d => d.name == tok.takeWhile (fun c => c != '/')) with
  | some d => d.is_optional = true ∨ tok.contains '/' = true
  | none => False

theorem checkDevDeps_ok_iff (l : List Dependency) :
    checkDevDeps l = .ok () ↔ ∀ d ∈ l, ¬(d.is_optional = true ∧ d.is_transitive = false) := by
  induction l with
  | nil => simp [checkDevDeps]
  | cons d rest ih =>
    by_cases h : d.is_optional && !d.is_transitive
    · simp only [checkDevDeps, if_pos h]
      simp only [Bool.and_eq_true, Bool.not_eq_true'] at h
      constructor
      · intro habs; exact absurd habs (by simp)
      · intro hall
        exact absurd ⟨h.1, h.2⟩ (hall d (by simp))
    · simp only [checkDevDeps, if_neg h, ih]
      simp only [Bool.and_eq_true, Bool.not_eq_true'] at h
      constructor
      · intro hall
        intro d' hd'
        rcases List.mem_cons.mp hd' with rfl | hm
        · intro ⟨h1, h2⟩; exact h ⟨h1, h2⟩
        · exact hall d' hm
      · intro hall d' hd'
        exact hall d' (List.mem_cons_of_mem _ hd')

theorem checkFeatureDeps_ok_iff (dependencies : List Dependency) (feature : String)
    (toks : List String) :
    checkFeatureDeps dependencies feature toks = .ok () ↔
      ∀ tok ∈ toks, tokenOk dependencies tok := by
  induction toks with
  | nil => simp [checkFeatureDeps]
  | cons tok rest ih =>
    simp only [checkFeatureDeps]
    cases h : dependencies.find? (fun d => d.name == tok.takeWhile (fun c => c != '/')) with
    | none =>
      simp only []
      constructor
      · intro habs; exact absurd habs (by simp)
      · intro hall
        have := hall tok (by simp)
        simp [tokenOk, h] at this
    | some d =>
      by_cases hc : d.is_optional || tok.contains '/'
      · simp only [if_pos hc, ih]
        simp only [Bool.or_eq_true] at hc
        constructor
        · intro hall tok' htok'
          rcases List.mem_cons.mp htok' with rfl | hm
          · simp [tokenOk, h, hc]
          · exact hall tok' hm
        · intro hall tok' htok'
          exact hall tok' (List.mem_cons_of_mem _ htok')
      · simp only [if_neg hc]
        constructor
        · intro habs; exact absurd habs (by simp)
        · intro hall
          have := hall tok (by simp)
          simp only [tokenOk, h] at this
          simp only [Bool.or_eq_true] at hc
          exact absurd this (by tauto)

theorem checkFeatureSubs_ok_iff (keys : List String) (feature : String)
    (subs : List String) :
    checkFeatureSubs keys feature subs = .ok () ↔ ∀ sub ∈ subs, sub ∈ keys := by
  induction subs with
  | nil => simp [checkFeatureSubs]
  | cons sub rest ih =>
    by_cases h : keys.contains sub
    · simp only [checkFeatureSubs, if_pos h, ih]
      have hmem : sub ∈ keys := by
        simpa using h
      constructor
      · intro hall s hs
        rcases List.mem_cons.mp hs with rfl | hm
        · exact hmem
        · exact hall s hm
      · intro hall s hs
        exact hall s (List.mem_cons_of_mem _ hs)
    · simp only [checkFeatureSubs, if_neg h]
      constructor
      · intro habs; exact absurd habs (by simp)
      · intro hall
        have := hall sub (by simp)
        simp at h
        exact absurd this h

theorem checkFeatures_ok_iff (dependencies : List Dependency) (keys : List String)
    (feats : List (String × Feature)) :
    checkFeatures dependencies keys feats = .ok () ↔
      ∀ p ∈ feats, (∀ tok ∈ p.2.dependencies, tokenOk dependencies tok) ∧
        (∀ sub ∈ p.2.features, sub ∈ keys) := by
  induction feats with
  | nil => simp [checkFeatures]
  | cons p rest ih =>
    obtain ⟨feature, desc⟩ := p
    simp only [checkFeatures]
    cases h1 : checkFeatureDeps dependencies feature desc.dependencies with
    | error e =>
      simp only []
      constructor
      · intro habs; exact absurd habs (by simp)
      · intro hall
        have := (hall (feature, desc) (by simp)).1
        rw [← checkFeatureDeps_ok_iff] at this
        rw [h1] at this
        exact absurd this (by simp)
    | ok u =>
      obtain ⟨⟩ := u
      cases h2 : checkFeatureSubs keys feature desc.features with
      | error e =>
        simp only []
        constructor
        · intro habs; exact absurd habs (by simp)
        · intro hall
          have := (hall (feature, desc) (by simp)).2
          rw [← checkFeatureSubs_ok_iff] at this
          rw [h2] at this
          exact absurd this (by simp)
      | ok u =>
        obtain ⟨⟩ := u
        rw [ih]
        constructor
        · intro hall p hp
          rcases List.mem_cons.mp hp with rfl | hm
          · exact ⟨(checkFeatureDeps_ok_iff _ _ _).mp h1,
              (checkFeatureSubs_ok_iff _ _ _).mp h2⟩
          · exact hall p hm
        · intro hall p hp
          exact hall p (List.mem_cons_of_mem _ hp)

/-- Characterization of successful Summary construction: both validation
passes succeed. -/
theorem summary_new_isOk_iff (pkg_id : PackageId) (dependencies : List Dependency)
    (features : List (String × Feature)) :
    (Summary.new pkg_id dependencies features).isOk = true ↔
      ((∀ d ∈ dependencies, ¬(d.is_optional = true ∧ d.is_transitive = false)) ∧
       ∀ p ∈ features, (∀ tok ∈ p.2.dependencies, tokenOk dependencies tok) ∧
         (∀ sub ∈ p.2.features, sub ∈ features.map Prod.fst)) := by
  unfold Summary.new
  cases h1 : checkDevDeps dependencies with
  | error e =>
    simp only [Except.isOk, Except.toBool]
    constructor
    · intro habs; exact absurd habs (by simp)
    · intro hall
      have := (checkDevDeps_ok_iff dependencies).mpr hall.1
      rw [h1] at this
      exact absurd this (by simp)
  | ok u =>
    obtain ⟨⟩ := u
    cases h2 : checkFeatures dependencies (features.map Prod.fst) features with
    | error e =>
      simp only [Except.isOk, Except.toBool]
      constructor
      · intro habs; exact absurd habs (by simp)
      · intro hall
        have := (checkFeatures_ok_iff dependencies (features.map Prod.fst) features).mpr hall.2
        rw [h2] at this
        exact absurd this (by simp)
    | ok u =>
      obtain ⟨⟩ := u
      simp only [Except.isOk, Except.toBool]
      constructor
      · intro _
        exact ⟨(checkDevDeps_ok_iff dependencies).mp h1,
          (checkFeatures_ok_iff dependencies (features.map Prod.fst) features).mp h2⟩
      · intro _; trivial

/-!
Filesystem model for `path.rs`.  A path is a list of components; the
filesystem is a finite tree whose files carry an optional modification
time (`none` models a path whose `stat` fails: broken symlink, permission
error, or a remove race — path.rs:270-277).
-/

/-- Finite filesystem tree.  Directory entries are an association list of
component name to subtree. -/
inductive FsTree where
  | file (mtime : Option Nat)
  | dir (entries : List (String × FsTree))
deriving Repr

/-- Resolve a path inside the tree. -/
def navigate : List String → FsTree → Option FsTree
  | [], t => some t
  | _ :: _, .file _ => none
  | n :: rest, .dir entries =>
    match entries.find? (fun e => e.1 == n) with
    | some e => navigate rest e.2
    | none => none

/-- Distinctness of directory entry names. -/
def nodupKeys : List String → Bool
  | [] => true
  | n :: rest => !rest.contains n && nodupKeys rest

mutual

/-- Well-formed filesystem: every directory has distinct entry names. -/
def FsTree.wf : FsTree → Bool
  | .file _ => true
  | .dir entries => nodupKeys (entries.map Prod.fst) && entriesWf entries

def entriesWf : List (String × FsTree) → Bool
  | [] => true
  | (_, sub) :: rest => sub.wf && entriesWf rest

end

/-- Existence check used by `walk` (path.rs:210): `path.join("Cargo.toml").exists()`. -/
def hasTomlEntry (entries : List (String × FsTree)) : Bool :=
  entries.any (fun e => e.1 == "Cargo.toml")

/-- Skip test of the `readdir` loop in `walk` (path.rs:212-217): `.git` at
any depth; `target` and `Cargo.lock` at the walk root only. -/
def skipEntry (name : String) (is_root : Bool) : Bool :=
  name == ".git" || (is_root && (name == "target" || name == "Cargo.lock"))

mutual

/-- PathSource::walk (path.rs:199-221), acting on the subtree that the
walked path denotes.  A non-directory is kept when the include/exclude
filter accepts it; a non-root directory containing a `Cargo.toml` entry is
a nested sub-package and is not descended into. -/
def walk : FsTree → List String → Bool → (List String → Bool) → List (List String)
  | .file _, path, _, filter => if filter path then [path] else []
  | .dir entries, path, is_root, filter =>
    if !is_root && hasTomlEntry entries then []
    else walkEntries entries path is_root filter

/-- Loop body of `walk` over `readdir` results (path.rs:211-218). -/
def walkEntries : List (String × FsTree) → List String → Bool → (List String → Bool) → List (List String)
  | [], _, _, _ => []
  | (name, sub) :: rest, path, is_root, filter =>
    (if skipEntry name is_root then []
     else walk sub (path ++ [name]) false filter) ++
    walkEntries rest path is_root filter

end

/-- Invoke `walk` on an absolute path of the filesystem `fs`.  A path that
does not resolve is not a directory, so the source pushes it when the
filter accepts it (path.rs:203-208). -/
def walkAt (fs : FsTree) (path : List String) (is_root : Bool)
    (filter : List String → Bool) : List (List String) :=
  match navigate path fs with
  | some t => walk t path is_root filter
  | none => if filter path then [path] else []

example :
    walk (.dir [("a.rs", .file (some 1)), ("sub", .dir [("Cargo.toml", .file (some 2)), ("b.rs", .file (some 3))])])
      ["p"] true (fun _ => true) = [["p", "a.rs"]] := by decide

example :
    walk (.dir [("a.rs", .file (some 1)), ("target", .dir [("b.rs", .file (some 3))])])
      ["p"] true (fun _ => true) = [["p", "a.rs"]] := by decide

/-- Entry subtrees are smaller than the directory that holds them. -/
theorem sizeOf_sub_lt_dir {name : String} {sub : FsTree}
    {entries : List (String × FsTree)} (h : (name, sub) ∈ entries) :
    sizeOf sub < sizeOf (FsTree.dir entries) := by
  have h1 := List.sizeOf_lt_of_mem h
  simp only [FsTree.dir.sizeOf_spec]
  have h2 : sizeOf (name, sub) = 1 + sizeOf name + sizeOf sub := rfl
  omega

/-- Membership characterization of the `readdir` loop of `walk`. -/
theorem mem_walkEntries {r : List String} :
    ∀ (entries : List (String × FsTree)) (path : List String) (is_root : Bool)
      (filter : List String → Bool),
      r ∈ walkEntries entries path is_root filter ↔
        ∃ name sub, (name, sub) ∈ entries ∧ skipEntry name is_root = false ∧
          r ∈ walk sub (path ++ [name]) false filter := by
  intro entries path is_root filter
  induction entries with
  | nil => simp [walkEntries]
  | cons e rest ih =>
    obtain ⟨name, sub⟩ := e
    by_cases h : skipEntry name is_root
    · simp only [walkEntries, if_pos h, List.nil_append, ih]
      constructor
      · rintro ⟨n, s, hm, hskip, hr⟩
        exact ⟨n, s, List.mem_cons_of_mem _ hm, hskip, hr⟩
      · rintro ⟨n, s, hm, hskip, hr⟩
        rcases List.mem_cons.mp hm with heq | hm'
        · cases heq
          rw [h] at hskip
          exact absurd hskip (by simp)
        · exact ⟨n, s, hm', hskip, hr⟩
    · simp only [walkEntries, if_neg h, List.mem_append, ih]
      constructor
      · rintro (hr | ⟨n, s, hm, hskip, hr⟩)
        · exact ⟨name, sub, by simp, by simpa using h, hr⟩
        · exact ⟨n, s, List.mem_cons_of_mem _ hm, hskip, hr⟩
      · rintro ⟨n, s, hm, hskip, hr⟩
        rcases List.mem_cons.mp hm with heq | hm'
        · cases heq
          exact Or.inl hr
        · exact Or.inr ⟨n, s, hm', hskip, hr⟩

/-- Every path returned by `walk` extends the walked path. -/
theorem walk_prefix :
    ∀ (k : Nat) (t : FsTree), sizeOf t < k →
      ∀ (path : List String) (is_root : Bool) (filter : List String → Bool)
        (r : List String), r ∈ walk t path is_root filter → path <+: r := by
  intro k
  induction k with
  | zero => intro t h; omega
  | succ k ih =>
    intro t ht path is_root filter r hr
    cases t with
    | file m =>
      simp only [walk] at hr
      split at hr
      · simp at hr; subst hr; exact List.prefix_refl _
      · simp at hr
    | dir entries =>
      simp only [walk] at hr
      split at hr
      · simp at hr
      · rw [mem_walkEntries] at hr
        obtain ⟨name, sub, hm, _, hr⟩ := hr
        have hsz : sizeOf sub < k := by
          have := sizeOf_sub_lt_dir hm
          omega
        have := ih sub hsz (path ++ [name]) false filter r hr
        exact (List.prefix_append path [name]).trans this

/-- Version of `walk_prefix` for `walkAt`. -/
theorem walkAt_prefix (fs : FsTree) (path : List String) (is_root : Bool)
    (filter : List String → Bool) (r : List String)
    (hr : r ∈ walkAt fs path is_root filter) : path <+: r := by
  unfold walkAt at hr
  split at hr
  · exact walk_prefix (sizeOf _ + 1) _ (Nat.lt_succ_self _) _ _ _ _ hr
  · split at hr
    · simp at hr; subst hr; exact List.prefix_refl _
    · simp at hr

/-- Whether the directory at `p` inside `fs` holds a `Cargo.toml` entry
(the condition that makes `walk` treat it as a nested sub-package). -/
def dirHasToml (fs : FsTree) (p : List String) : Bool :=
  match navigate p fs with
  | some (.dir entries) => hasTomlEntry entries
  | _ => false

theorem navigate_append (a : List String) :
    ∀ (b : List String) (fs : FsTree),
      navigate (a ++ b) fs = (navigate a fs).bind (fun t => navigate b t) := by
  induction a with
  | nil => intro b fs; simp [navigate]
  | cons n rest ih =>
    intro b fs
    cases fs with
    | file m => simp [navigate]
    | dir entries =>
      simp only [List.cons_append, navigate]
      cases h : entries.find? (fun e => e.1 == n) with
      | none => simp
      | some e => simpa using ih b e.2

theorem entry_unique :
    ∀ (entries : List (String × FsTree)), nodupKeys (entries.map Prod.fst) = true →
      ∀ n s1 s2, (n, s1) ∈ entries → (n, s2) ∈ entries → s1 = s2 := by
  intro entries
  induction entries with
  | nil => intro _ n s1 s2 h1; simp at h1
  | cons e rest ih =>
    obtain ⟨m, t⟩ := e
    intro hnd n s1 s2 h1 h2
    simp only [List.map_cons, nodupKeys, Bool.and_eq_true, Bool.not_eq_true'] at hnd
    rw [List.mem_cons, Prod.mk.injEq] at h1 h2
    rcases h1 with ⟨h1a, h1b⟩ | hm1 <;> rcases h2 with ⟨h2a, h2b⟩ | hm2
    · rw [h1b, h2b]
    · have hmem : m ∈ rest.map Prod.fst := by
        rw [← h1a]
        exact List.mem_map.mpr ⟨(n, s2), hm2, rfl⟩
      have hc : (rest.map Prod.fst).contains m = true := by simpa using hmem
      rw [hnd.1] at hc
      simp at hc
    · have hmem : m ∈ rest.map Prod.fst := by
        rw [← h2a]
        exact List.mem_map.mpr ⟨(n, s1), hm1, rfl⟩
      have hc : (rest.map Prod.fst).contains m = true := by simpa using hmem
      rw [hnd.1] at hc
      simp at hc
    · exact ih hnd.2 n s1 s2 hm1 hm2

theorem entriesWf_mem :
    ∀ (entries : List (String × FsTree)), entriesWf entries = true →
      ∀ n sub, (n, sub) ∈ entries → sub.wf = true := by
  intro entries
  induction entries with
  | nil => intro _ n sub h; simp at h
  | cons e rest ih =>
    obtain ⟨m, t⟩ := e
    intro hwf n sub hm
    simp only [entriesWf, Bool.and_eq_true] at hwf
    rcases List.mem_cons.mp hm with heq | hm'
    · cases heq; exact hwf.1
    · exact ih hwf.2 n sub hm'

theorem navigate_wf :
    ∀ (p : List String) (fs : FsTree) (t : FsTree), fs.wf = true →
      navigate p fs = some t → t.wf = true := by
  intro p
  induction p with
  | nil => intro fs t hwf h; simp [navigate] at h; subst h; exact hwf
  | cons n rest ih =>
    intro fs t hwf h
    cases fs with
    | file m => simp [navigate] at h
    | dir entries =>
      simp only [navigate] at h
      cases hfind : entries.find? (fun e => e.1 == n) with
      | none => rw [hfind] at h; simp at h
      | some e =>
        rw [hfind] at h
        have hmem := List.mem_of_find?_eq_some hfind
        have hewf : e.2.wf = true := by
          simp only [FsTree.wf, Bool.and_eq_true] at hwf
          exact entriesWf_mem entries hwf.2 e.1 e.2 (by simpa using hmem)
        exact ih e.2 t hewf h

/-- Core exclusion property of the plain walk: once a strictly deeper
directory holds a `Cargo.toml`, no walked file lies at or below it. -/
theorem walk_avoid :
    ∀ (rest : List String) (t : FsTree) (path : List String) (is_root : Bool)
      (filter : List String → Bool),
      t.wf = true → dirHasToml t rest = true → (is_root = true → rest ≠ []) →
      ∀ r ∈ walk t path is_root filter, ¬ ((path ++ rest) <+: r) := by
  intro rest
  induction rest with
  | nil =>
    intro t path is_root filter hwf htoml hir r hr hcon
    cases is_root with
    | true => exact (hir rfl) rfl
    | false =>
      cases t with
      | file m => simp [dirHasToml, navigate] at htoml
      | dir entries =>
        simp only [dirHasToml, navigate] at htoml
        simp [walk, htoml] at hr
  | cons n rest' ih =>
    intro t path is_root filter hwf htoml hir r hr hcon
    cases t with
    | file m => simp [dirHasToml, navigate] at htoml
    | dir entries =>
      simp only [dirHasToml, navigate] at htoml
      cases hfind : entries.find? (fun e => e.1 == n) with
      | none => rw [hfind] at htoml; simp at htoml
      | some e =>
        rw [hfind] at htoml
        simp only [walk] at hr
        split at hr
        · simp at hr
        · rw [mem_walkEntries] at hr
          obtain ⟨name, sub, hm, hskip, hr⟩ := hr
          have happ : path ++ n :: rest' = (path ++ [n]) ++ rest' := by simp
          rw [happ] at hcon
          have hpre1 : (path ++ [name]) <+: r :=
            walk_prefix (sizeOf sub + 1) sub (Nat.lt_succ_self _) _ _ _ _ hr
          have hpre2 : (path ++ [n]) <+: r := (List.prefix_append _ _).trans hcon
          have hname : name = n := by
            rcases List.prefix_or_prefix_of_prefix hpre1 hpre2 with h | h
            · have := List.IsPrefix.eq_of_length h (by simp)
              simpa using this
            · have := List.IsPrefix.eq_of_length h (by simp)
              simpa using (this.symm)
          rw [hname] at hr hm
          have hefst : e.1 = n := by
            have := List.find?_some hfind
            simpa using this
          have hmemE := List.mem_of_find?_eq_some hfind
          simp only [FsTree.wf, Bool.and_eq_true] at hwf
          have hsub_eq : sub = e.2 := by
            refine entry_unique entries hwf.1 n sub e.2 hm ?_
            have hpair : (e.1, e.2) ∈ entries := by simpa using hmemE
            rwa [hefst] at hpair
          have hsubwf : sub.wf = true := entriesWf_mem entries hwf.2 n sub hm
          have htoml' : dirHasToml sub rest' = true := by
            simp only [dirHasToml]
            rw [hsub_eq]
            exact htoml
          exact ih sub (path ++ [n]) false filter hsubwf htoml' (by simp) r hr hcon

/-- `walkAt` version of `walk_avoid`, phrased on absolute paths. -/
theorem walkAt_avoid (fs : FsTree) (p q : List String) (is_root : Bool)
    (filter : List String → Bool)
    (hwf : fs.wf = true) (hpq : p <+: q) (htoml : dirHasToml fs q = true)
    (hir : is_root = true → p ≠ q) :
    ∀ r ∈ walkAt fs p is_root filter, ¬ (q <+: r) := by
  obtain ⟨rest, rfl⟩ := hpq
  intro r hr hcon
  unfold walkAt at hr
  cases hnav : navigate p fs with
  | some t =>
    rw [hnav] at hr
    have htwf := navigate_wf p fs t hwf hnav
    have htoml' : dirHasToml t rest = true := by
      simp only [dirHasToml] at htoml ⊢
      rw [navigate_append, hnav, Option.some_bind] at htoml
      exact htoml
    have hrest : is_root = true → rest ≠ [] := by
      intro h hnil
      subst hnil
      exact (hir h) (by simp)
    exact walk_avoid rest t p is_root filter htwf htoml' hrest r hr hcon
  | none =>
    rw [hnav] at hr
    simp at hr
    obtain ⟨hf, rfl⟩ := hr
    have hlen := hcon.length_le
    rw [List.length_append] at hlen
    have hnil : rest = [] := by
      have h0 : rest.length = 0 := by omega
      exact List.length_eq_zero.mp h0
    subst hnil
    simp only [dirHasToml, List.append_nil] at htoml
    rw [hnav] at htoml
    simp at htoml

/-!
PathSource (path.rs).  `git2::Repository` is an external collaborator: a
repository is modelled by its working directory, its index entries, its
unborn flag with the status-reported paths, and its resolvable
submodules.  The glob `Pattern`s of the include/exclude lists are external
too and are modelled as predicates on the path relative to the package
root.
-/

/-- Package (external collaborator, produced by the manifest reader): its
identity, its root directory (`get_manifest_path().dir_path()`, equal to
`get_root()`), the include/exclude glob patterns of its manifest, and its
Summary. -/
structure Package where
  package_id : PackageId
  root : List String
  include_pats : List (List String → Bool)
  exclude_pats : List (List String → Bool)
  summary : Summary

/-- Modelled from the spec: `PartialEq for Package` is not part of the
excerpt; spec §3 defines package identity as its PackageId
(name, version, source-id), so `p == pkg` compares package ids. -/
def pkgEq (a b : Package) : Bool :=
  a.package_id == b.package_id

/-- Git repository model (external `git2` collaborator): working
directory, index entry paths (relative), whether `head()` fails (unborn),
status-reported paths (relative), and the submodules that
`find_submodule` + `open` resolve, keyed by path relative to the working
directory. -/
inductive Repo where
  | mk : List String → List (List String) → Bool → List (List String) →
         List (List String × Repo) → Repo

def Repo.workdir : Repo → List String
  | .mk w _ _ _ _ => w

def Repo.indexPaths : Repo → List (List String)
  | .mk _ i _ _ _ => i

def Repo.unborn : Repo → Bool
  | .mk _ _ u _ _ => u

def Repo.statusPaths : Repo → List (List String)
  | .mk _ _ _ s _ => s

def Repo.submodules : Repo → List (List String × Repo)
  | .mk _ _ _ _ m => m

/-- Candidate files of `list_files_git` (path.rs:134-142): index entries
joined to the workdir, chained with status entries (tracked and
untracked), the latter kept only when the repository is unborn. -/
def Repo.candidates (r : Repo) : List (List String) :=
  r.indexPaths.map (fun p => r.workdir ++ p) ++
    (if r.unborn then r.statusPaths.map (fun p => r.workdir ++ p) else [])

/-- Lookup of `repo.find_submodule(rel)` followed by `submodule.open()`. -/
def findSubmodule (subs : List (List String × Repo)) (rel : List String) : Option Repo :=
  (subs.find? (fun e => e.1 == rel)).map (fun e => e.2)

/-- Whether the path is a directory on disk (`file_path.is_dir()`,
path.rs:161). -/
def isDirAt (fs : FsTree) (p : List String) : Bool :=
  match navigate p fs with
  | some (.dir _) => true
  | _ => false

/-- Sub-package skip of the git listing (path.rs:150-157): the candidate
is dropped when some other discovered package sits between the listed
package's directory and the candidate. -/
def underOtherPackage (packages : List Package) (pkg : Package)
    (file_path : List String) : Bool :=
  (packages.filter (fun p => !(pkgEq p pkg))).any (fun other =>
    pkg.root.isPrefixOf other.root && other.root.isPrefixOf file_path)

theorem findSubmodule_sizeOf {subs : List (List String × Repo)} {rel : List String}
    {r : Repo} (h : findSubmodule subs rel = some r) : sizeOf r < sizeOf subs := by
  unfold findSubmodule at h
  cases hfind : subs.find? (fun e => e.1 == rel) with
  | none => rw [hfind] at h; simp at h
  | some e =>
    rw [hfind] at h
    simp at h
    subst h
    have hmem := List.mem_of_find?_eq_some hfind
    have h1 := List.sizeOf_lt_of_mem hmem
    have h2 : sizeOf e = 1 + sizeOf e.1 + sizeOf e.2 := by
      obtain ⟨a, b⟩ := e; rfl
    omega

theorem submodules_sizeOf (repo : Repo) : sizeOf repo.submodules < sizeOf repo := by
  obtain ⟨w, i, u, s, m⟩ := repo
  simp [Repo.submodules]

/-- PathSource::list_files_git (path.rs:112-184): iterate candidates,
skip files outside the package, the lockfile and `target`, and anything
under a nested sub-package; descend into directories as submodule
repositories (or fall back to a plain walk); keep files passing the
filter. -/
def list_files_git (packages : List Package) (fs : FsTree) (pkg : Package)
    (filter : List String → Bool) (repo : Repo) : List (List String) :=
  repo.candidates.flatMap (fun file_path =>
    if !(pkg.root.isPrefixOf file_path) then []
    else if file_path.getLast? == some "Cargo.lock" then []
    else if file_path.getLast? == some "target" then []
    else if underOtherPackage packages pkg file_path then []
    else if isDirAt fs file_path then
      match h : findSubmodule repo.submodules (file_path.drop repo.workdir.length) with
      | some sub => list_files_git packages fs pkg filter sub
      | none => walkAt fs file_path false filter
    else if filter file_path then [file_path] else [])
termination_by sizeOf repo
decreasing_by
  all_goals exact Nat.lt_trans (findSubmodule_sizeOf h) (submodules_sizeOf repo)

/-- PathSource (path.rs:11-17): source id, root path, the updated flag
and the discovered packages.  The `Config` handle carries no state used
by the modelled operations. -/
structure PathSource where
  id : Nat
  path : List String
  updated : Bool
  packages : List Package

/-- PathSource::new (path.rs:31-42). -/
def PathSource.new (path : List String) (id : Nat) : PathSource :=
  { id := id, path := path, updated := false, packages := [] }

/-- Include/exclude filter closure of `list_files` (path.rs:77-90): a
path is kept if it matches some include pattern, or — when no include
pattern is declared — if it matches no exclude pattern.  Patterns are
matched against the path relative to the package root. -/
def mkFilter (include_pats exclude_pats : List (List String → Bool))
    (root : List String) (p : List String) : Bool :=
  let relative_path := p.drop root.length
  include_pats.any (fun pat => pat relative_path) ||
    (include_pats.length == 0 && !(exclude_pats.any (fun pat => pat relative_path)))

/-- PathSource::list_files_walk (path.rs:186-197): walk from the root of
every discovered package equal to `pkg`. -/
def list_files_walk (s : PathSource) (fs : FsTree) (pkg : Package)
    (filter : List String → Bool) : List (List String) :=
  (s.packages.filter (fun p => pkgEq p pkg)).flatMap
    (fun p => walkAt fs p.root true filter)

/-- PathSource::list_files (path.rs:74-110): build the include/exclude
filter, probe the discovered ancestor roots for a git repository
(`gitOpen` models `git2::Repository::open`), and dispatch to the git
listing or the plain walk. -/
def PathSource.list_files (s : PathSource) (fs : FsTree)
    (gitOpen : List String → Option Repo) (pkg : Package) : List (List String) :=
  match (((s.packages.map Package.root).filter
      (fun path => path.isPrefixOf pkg.root)).filterMap gitOpen).head? with
  | some repo =>
    list_files_git s.packages fs pkg
      (mkFilter pkg.include_pats pkg.exclude_pats pkg.root) repo
  | none =>
    list_files_walk s fs pkg
      (mkFilter pkg.include_pats pkg.exclude_pats pkg.root)

/-- PathSource::update (path.rs:240-248): discover packages once;
`readResult` models the outcome of the `ops::read_packages` collaborator
(path.rs:57-63, the not-yet-updated branch). -/
def PathSource.update (s : PathSource)
    (readResult : Except String (List Package)) : Except String Unit × PathSource :=
  if s.updated then (.ok (), s)
  else
    match readResult with
    | .error e => (.error e, s)
    | .ok packages =>
      (.ok (), { s with packages := s.packages ++ packages, updated := true })

/-- Modelled from the spec: `Registry for Vec<Summary>` (the
`summaries.query(dep)` call of path.rs:235 lives outside the excerpt);
spec §2 and §6: query filters the collection to the summaries matching
the dependency's name and version constraint. -/
def querySummaries (dep : Dependency) (summaries : List Summary) :
    Except String (List Summary) :=
  .ok (summaries.filter (fun s =>
    s.package_id.name == dep.name && dep.req.matchesVer s.package_id.version))

/-- Registry for PathSource::query (path.rs:230-237): project the
discovered packages to summaries and query that collection. -/
def PathSource.query (s : PathSource) (dep : Dependency) :
    Except String (List Summary) :=
  querySummaries dep (s.packages.map Package.summary)

/-- Source for PathSource::get (path.rs:255-262): discovered packages
whose id occurs in `ids`, in discovery order. -/
def PathSource.get (s : PathSource) (ids : List PackageId) :
    Except String (List Package) :=
  .ok (s.packages.filter (fun pkg => ids.any (fun id => pkg.package_id == id)))

/-- Stat of a path: the mtime of a file that resolves and whose stat
succeeds; `none` otherwise. -/
def statMtime (fs : FsTree) (p : List String) : Option Nat :=
  match navigate p fs with
  | some (.file mtime) => mtime
  | _ => none

/-- Source for PathSource::fingerprint (path.rs:264-281): fails before
the first update; otherwise the maximum of the files' modification times,
a failing stat contributing 0, rendered in decimal. -/
def PathSource.fingerprint (s : PathSource) (fs : FsTree)
    (gitOpen : List String → Option Repo) (pkg : Package) : Except String String :=
  if !s.updated then .error "BUG: source was not updated"
  else
    .ok (toString ((s.list_files fs gitOpen pkg).foldl
      (fun max₀ file => Nat.max max₀ ((statMtime fs file).getD 0)) 0))

/-!
ManifestCache (manifest_cache.rs).  `Rc` pointer identity is modelled by
a fresh id allocated at each insertion; the read + deserialize work is an
external collaborator (`parseFile`), and the number of times it ran is
recorded. -/

/-- State of the cache: directory key to allocated output id, the next
fresh id, and how many times read-and-deserialize work ran. -/
structure CacheState where
  cache : List (List String × Nat)
  nextId : Nat
  parses : Nat

/-- parse_manifest (manifest_cache.rs:20-40): key on the file's parent
directory; on a hit return the shared output unchanged, on a miss run the
read + deserialize work and cache the freshly allocated shared output. -/
def parse_manifest (parseFile : List String → Except String Unit)
    (manifest_file : List String) (s : CacheState) :
    Except String Nat × CacheState :=
  let key := manifest_file.dropLast
  match s.cache.find? (fun e => e.1 == key) with
  | some e => (.ok e.2, s)
  | none =>
    match parseFile manifest_file with
    | .error err => (.error err, { s with parses := s.parses + 1 })
    | .ok _ =>
      (.ok s.nextId,
       { cache := (key, s.nextId) :: s.cache,
         nextId := s.nextId + 1,
         parses := s.parses + 1 })

theorem underOtherPackage_false {packages : List Package} {pkg other : Package}
    {file_path : List String}
    (h : underOtherPackage packages pkg file_path = false)
    (hmem : other ∈ packages) (hne : pkgEq other pkg = false)
    (hanc : pkg.root <+: other.root) :
    ¬ (other.root <+: file_path) := by
  intro hcon
  unfold underOtherPackage at h
  rw [List.any_eq_false] at h
  have hfilt : other ∈ packages.filter (fun p => !(pkgEq p pkg)) := by
    rw [List.mem_filter]
    exact ⟨hmem, by rw [hne]; rfl⟩
  have hboth := h other hfilt
  have h1 : pkg.root.isPrefixOf other.root = true := List.isPrefixOf_iff_prefix.mpr hanc
  have h2 : other.root.isPrefixOf file_path = true := List.isPrefixOf_iff_prefix.mpr hcon
  rw [h1, h2] at hboth
  simp at hboth

/-- No file listed by the git path lies under a nested sub-package
directory: the candidate loop skips such candidates, submodule recursion
re-applies the same skips, and the walk fallback stops at the manifest
directory. -/
theorem git_avoid (fs : FsTree) (packages : List Package) (pkg other : Package)
    (filter : List String → Bool)
    (hwf : fs.wf = true)
    (hmem : other ∈ packages) (hne : pkgEq other pkg = false)
    (hanc : pkg.root <+: other.root)
    (htoml : dirHasToml fs other.root = true) :
    ∀ (repo : Repo) (r : List String),
      r ∈ list_files_git packages fs pkg filter repo → ¬ (other.root <+: r) := by
  suffices aux : ∀ (k : Nat) (repo : Repo), sizeOf repo < k →
      ∀ r ∈ list_files_git packages fs pkg filter repo, ¬ (other.root <+: r) by
    intro repo r hr
    exact aux (sizeOf repo + 1) repo (Nat.lt_succ_self _) r hr
  intro k
  induction k with
  | zero => intro repo h; omega
  | succ k ih =>
    intro repo hk r hr hcon
    rw [list_files_git, List.mem_flatMap] at hr
    obtain ⟨fp, hfp, hr⟩ := hr
    split at hr
    · simp at hr
    split at hr
    · simp at hr
    split at hr
    · simp at hr
    split at hr
    · simp at hr
    next hunder =>
    split at hr
    · split at hr
      next sub hsub =>
        have hsz : sizeOf sub < k := by
          have h1 := findSubmodule_sizeOf hsub
          have h2 := submodules_sizeOf repo
          omega
        exact ih sub hsz r hr hcon
      next hsub =>
        have hnotunder : ¬ (other.root <+: fp) :=
          underOtherPackage_false (Bool.of_not_eq_true hunder) hmem hne hanc
        have hfpre : fp <+: r := walkAt_prefix fs fp false filter r hr
        rcases List.prefix_or_prefix_of_prefix hfpre hcon with hc1 | hc2
        · exact walkAt_avoid fs fp other.root false filter hwf hc1 htoml
            (by intro habs; exact absurd habs (by simp)) r hr hcon
        · exact hnotunder hc2
    · split at hr
      · simp at hr
        subst hr
        exact underOtherPackage_false (Bool.of_not_eq_true hunder) hmem hne hanc hcon
      · simp at hr

/-!
Claim theorems.
-/

/-- C3.  For every dependency list containing at least one dependency that
is both optional and non-transitive (a dev-dependency), `Summary::new`
returns a validation error and no Summary is constructed. -/
theorem claim_C3 (pkg_id : PackageId) (dependencies : List Dependency)
    (features : List (String × Feature)) (d : Dependency)
    (hmem : d ∈ dependencies) (hopt : d.is_optional = true)
    (htrans : d.is_transitive = false) :
    (Summary.new pkg_id dependencies features).isOk = false := by
  cases hok : (Summary.new pkg_id dependencies features).isOk with
  | false => rfl
  | true =>
    have hall := (summary_new_isOk_iff pkg_id dependencies features).mp hok
    exact absurd ⟨hopt, htrans⟩ (hall.1 d hmem)

theorem claim_C3_witness :
    (Summary.new ⟨"p", (1, 0, 0), 0⟩ [⟨"x", true, false, .wildcard⟩] []).isOk = false :=
  claim_C3 ⟨"p", (1, 0, 0), 0⟩ [⟨"x", true, false, .wildcard⟩] []
    ⟨"x", true, false, .wildcard⟩ (by simp) rfl rfl

/-- C4 counterexample.  With the dependency list `[x: optional
dev-dependency]` and an empty features map there is no feature violation
at all (no feature exists), yet `Summary::new` fails — so "if none of
these violations occur, construction succeeds" is false as stated. -/
theorem claim_C4_counterexample :
    (Summary.new ⟨"p", (1, 0, 0), 0⟩ [⟨"x", true, false, .wildcard⟩]
      ([] : List (String × Feature))).isOk = false := by decide

/-- C4 amended.  `Summary::new` succeeds exactly when, additionally to the
feature conditions of the claim, no dependency is both optional and
non-transitive: it fails whenever some feature lists a dependency token
whose base name (before any `/`) resolves to no dependency, or a token
without a `/` whose resolved dependency is non-optional (a reexport token
`name/feature` only requires the base dependency to exist), or a
sub-feature that is not a key of the features map, or some dependency is
an optional dev-dependency; with no such violation construction
succeeds. -/
theorem claim_C4_amended (pkg_id : PackageId) (dependencies : List Dependency)
    (features : List (String × Feature)) :
    (Summary.new pkg_id dependencies features).isOk = true ↔
      ((∀ d ∈ dependencies, ¬(d.is_optional = true ∧ d.is_transitive = false)) ∧
       ∀ p ∈ features, (∀ tok ∈ p.2.dependencies, tokenOk dependencies tok) ∧
         (∀ sub ∈ p.2.features, sub ∈ features.map Prod.fst)) :=
  summary_new_isOk_iff pkg_id dependencies features

/-- C5.  Two Summaries are equal (Rust `PartialEq`) exactly when their
`package_id` fields are equal; dependencies and features play no role. -/
theorem claim_C5 (a b : Summary) :
    a.eqSummary b = true ↔ a.package_id = b.package_id := by
  unfold Summary.eqSummary
  exact packageId_beq_iff a.package_id b.package_id

/-- C1 counterexample.  The claim says `query` fails fast (internal
error) before the first successful `update`; on the code a fresh,
never-updated PathSource answers `query` with a normal `Ok` result (the
empty summary list), because `Registry::query` never consults the
`updated` flag (path.rs:230-237). -/
theorem claim_C1_counterexample :
    (PathSource.new ["p"] 0).query ⟨"a", false, true, .wildcard⟩ = .ok [] ∧
    ¬ ∃ e, (PathSource.new ["p"] 0).query ⟨"a", false, true, .wildcard⟩ = .error e := by
  refine ⟨rfl, ?_⟩
  rintro ⟨e, habs⟩
  rw [show (PathSource.new ["p"] 0).query ⟨"a", false, true, .wildcard⟩ = .ok [] from rfl] at habs
  exact absurd habs (by simp)

/-- C1 amended.  Before the first successful `update` only `fingerprint`
fails fast with an internal error; `query`, `get` and `list_files` do not
check the `updated` flag and return normal (empty) results on the
not-yet-updated source. -/
theorem claim_C1_amended (s : PathSource) (fs : FsTree)
    (gitOpen : List String → Option Repo) (pkg : Package) (dep : Dependency)
    (ids : List PackageId)
    (hupd : s.updated = false) (hpkgs : s.packages = []) :
    s.fingerprint fs gitOpen pkg = .error "BUG: source was not updated" ∧
    s.query dep = .ok [] ∧
    s.get ids = .ok [] ∧
    s.list_files fs gitOpen pkg = [] := by
  refine ⟨?_, ?_, ?_, ?_⟩
  · simp [PathSource.fingerprint, hupd]
  · simp [PathSource.query, querySummaries, hpkgs]
  · simp [PathSource.get, hpkgs]
  · simp [PathSource.list_files, list_files_walk, hpkgs]

def c1_pkg : Package :=
  { package_id := ⟨"a", (1, 0, 0), 0⟩, root := ["p"], include_pats := [],
    exclude_pats := [],
    summary := { package_id := ⟨"a", (1, 0, 0), 0⟩, dependencies := [], features := [] } }

theorem claim_C1_witness :
    (PathSource.new ["p"] 0).fingerprint (.dir []) (fun _ => none) c1_pkg =
        .error "BUG: source was not updated" ∧
    (PathSource.new ["p"] 0).query ⟨"a", false, true, .wildcard⟩ = .ok [] ∧
    (PathSource.new ["p"] 0).get [⟨"a", (1, 0, 0), 0⟩] = .ok [] ∧
    (PathSource.new ["p"] 0).list_files (.dir []) (fun _ => none) c1_pkg = [] :=
  claim_C1_amended (PathSource.new ["p"] 0) (.dir []) (fun _ => none) c1_pkg
    ⟨"a", false, true, .wildcard⟩ [⟨"a", (1, 0, 0), 0⟩] rfl rfl

/-- C10.  On a PathSource whose `update` has never run (the freshly
constructed source), `query` and `get` both succeed with an empty vector
rather than reporting any error. -/
theorem claim_C10 (path : List String) (id : Nat) (dep : Dependency)
    (ids : List PackageId) :
    (PathSource.new path id).query dep = .ok [] ∧
    (PathSource.new path id).get ids = .ok [] := by
  constructor
  · simp [PathSource.new, PathSource.query, querySummaries]
  · simp [PathSource.new, PathSource.get]

/-- C6.  `update` is idempotent: after one successful `update`, any
further `update` call (whatever the manifest reader would now return)
succeeds and leaves the source — in particular its discovered package
list — unchanged. -/
theorem claim_C6 (s : PathSource) (r₁ r₂ : Except String (List Package))
    (h : (s.update r₁).1 = .ok ()) :
    ((s.update r₁).2).update r₂ = (.ok (), (s.update r₁).2) := by
  unfold PathSource.update at *
  by_cases hu : s.updated
  · simp [hu]
  · simp only [if_neg hu] at h ⊢
    cases r₁ with
    | error e => simp at h
    | ok pkgs => simp

theorem claim_C6_witness :
    (((PathSource.new ["p"] 0).update (.ok [c1_pkg])).2).update (.error "boom") =
      (.ok (), ((PathSource.new ["p"] 0).update (.ok [c1_pkg])).2) :=
  claim_C6 (PathSource.new ["p"] 0) (.ok [c1_pkg]) (.error "boom") rfl

/-- C8.  `parse_manifest` is keyed by the manifest file's containing
directory: when a first call for some file succeeds, a second call for
any file with the same parent directory returns the same shared output
(reference-equal, i.e. the same allocated id), leaves the cache state
untouched, and runs no further read-and-deserialize work — which thus ran
at most once across both calls. -/
theorem claim_C8 (parseFile : List String → Except String Unit)
    (f1 f2 : List String) (s s1 : CacheState) (out : Nat)
    (hdir : f1.dropLast = f2.dropLast)
    (hfirst : parse_manifest parseFile f1 s = (.ok out, s1)) :
    parse_manifest parseFile f2 s1 = (.ok out, s1) ∧ s1.parses ≤ s.parses + 1 := by
  unfold parse_manifest at hfirst ⊢
  rw [← hdir]
  cases hlook : s.cache.find? (fun e => e.1 == f1.dropLast) with
  | some e =>
    simp only [hlook] at hfirst
    simp only [Prod.mk.injEq, Except.ok.injEq] at hfirst
    obtain ⟨hout, hs1⟩ := hfirst
    subst hs1
    constructor
    · simp [hlook, hout]
    · omega
  | none =>
    simp only [hlook] at hfirst
    cases hparse : parseFile f1 with
    | error err =>
      simp only [hparse] at hfirst
      simp at hfirst
    | ok u =>
      simp only [hparse] at hfirst
      simp only [Prod.mk.injEq, Except.ok.injEq] at hfirst
      obtain ⟨hout, hs1⟩ := hfirst
      subst hs1
      constructor
      · simp [List.find?, hout]
      · simp

def c2_pkg : Package :=
  { package_id := ⟨"p", (1, 0, 0), 0⟩, root := ["p"], include_pats := [],
    exclude_pats := [],
    summary := { package_id := ⟨"p", (1, 0, 0), 0⟩, dependencies := [], features := [] } }

def c2_fs : FsTree :=
  .dir [("p", .dir [
    ("Cargo.toml", .file (some 1)),
    ("Cargo.lock", .file (some 1)),
    ("src", .dir [("main.rs", .file (some 2))]),
    ("target", .dir [("debug", .dir [("foo", .file (some 3))])])])]

def c2_src : PathSource :=
  { id := 0, path := ["p"], updated := true, packages := [c2_pkg] }

/-- C2 counterexample.  On the claimed scenario (root `/p` with
`Cargo.toml`, `src/main.rs`, `target/debug/foo`, `Cargo.lock`, no
include/exclude, no VCS) `list_files` does NOT return exactly
`[src/main.rs]`: the walk never skips the manifest file itself, so
`Cargo.toml` is listed too (path.rs:211-218 skips only `.git`, `target`
and `Cargo.lock`). -/
theorem claim_C2_counterexample :
    c2_src.list_files c2_fs (fun _ => none) c2_pkg ≠ [["p", "src", "main.rs"]] ∧
    ["p", "Cargo.toml"] ∈ c2_src.list_files c2_fs (fun _ => none) c2_pkg := by
  decide

/-- C2 amended.  On that scenario `list_files` returns exactly the two
paths `Cargo.toml` and `src/main.rs` (and in particular still excludes
`Cargo.lock` and everything under `target`). -/
theorem claim_C2_amended :
    c2_src.list_files c2_fs (fun _ => none) c2_pkg =
      [["p", "Cargo.toml"], ["p", "src", "main.rs"]] := by
  decide

/-- Spec-side maximum modification time of a list of files: a stat
failure contributes 0. -/
def maxMtime (fs : FsTree) : List (List String) → Nat
  | [] => 0
  | f :: rest => Nat.max ((statMtime fs f).getD 0) (maxMtime fs rest)

theorem foldl_maxMtime (fs : FsTree) :
    ∀ (l : List (List String)) (a : Nat),
      l.foldl (fun max₀ file => Nat.max max₀ ((statMtime fs file).getD 0)) a =
        Nat.max a (maxMtime fs l) := by
  intro l
  induction l with
  | nil => intro a; simp [maxMtime]
  | cons f rest ih =>
    intro a
    simp only [List.foldl_cons, maxMtime, ih]
    exact Nat.max_assoc a _ _

/-- C7.  On an updated PathSource, `fingerprint` returns, as a decimal
string, the maximum modification time over the files returned by
`list_files`, a file whose stat fails contributing 0 instead of an
error. -/
theorem claim_C7 (s : PathSource) (fs : FsTree)
    (gitOpen : List String → Option Repo) (pkg : Package)
    (hupd : s.updated = true) :
    s.fingerprint fs gitOpen pkg =
      .ok (toString (maxMtime fs (s.list_files fs gitOpen pkg))) := by
  simp [PathSource.fingerprint, hupd, foldl_maxMtime fs]

def c7_pkg : Package :=
  { package_id := ⟨"c", (1, 0, 0), 0⟩, root := ["q"], include_pats := [],
    exclude_pats := [],
    summary := { package_id := ⟨"c", (1, 0, 0), 0⟩, dependencies := [], features := [] } }

def c7_fs : FsTree :=
  .dir [("q", .dir [("a.rs", .file (some 100)), ("b.rs", .file none)])]

def c7_src : PathSource :=
  { id := 0, path := ["q"], updated := true, packages := [c7_pkg] }

theorem claim_C7_witness :
    c7_src.fingerprint c7_fs (fun _ => none) c7_pkg = .ok "100" := by
  rw [claim_C7 c7_src c7_fs (fun _ => none) c7_pkg rfl]
  have hval : toString (maxMtime c7_fs (c7_src.list_files c7_fs (fun _ => none) c7_pkg)) = "100" := by
    decide
  rw [hval]

/-- C9.  `list_files pkg` never returns a path at or below the root of
another discovered package nested strictly under `pkg`'s root — on the
git listing (whatever repository the probe finds) and on the plain walk
alike.  Side conditions reflect a real on-disk state: the filesystem has
distinct entry names, the nested package's root is a directory holding
its `Cargo.toml`, and discovered packages equal to `pkg` sit at `pkg`'s
root. -/
theorem claim_C9 (s : PathSource) (fs : FsTree)
    (gitOpen : List String → Option Repo) (pkg other : Package)
    (hwf : fs.wf = true)
    (hmem : other ∈ s.packages)
    (hne : pkgEq other pkg = false)
    (hanc : pkg.root <+: other.root)
    (hproper : other.root ≠ pkg.root)
    (htoml : dirHasToml fs other.root = true)
    (hroots : ∀ p ∈ s.packages, pkgEq p pkg = true → p.root = pkg.root) :
    ∀ r ∈ s.list_files fs gitOpen pkg, ¬ (other.root <+: r) := by
  intro r hr hcon
  unfold PathSource.list_files at hr
  cases hprobe : (((s.packages.map Package.root).filter
      (fun path => path.isPrefixOf pkg.root)).filterMap gitOpen).head? with
  | some repo =>
    rw [hprobe] at hr
    exact git_avoid fs s.packages pkg other _ hwf hmem hne hanc htoml repo r hr hcon
  | none =>
    rw [hprobe] at hr
    unfold list_files_walk at hr
    rw [List.mem_flatMap] at hr
    obtain ⟨p, hp, hr⟩ := hr
    rw [List.mem_filter] at hp
    obtain ⟨hpmem, hpeq⟩ := hp
    rw [hroots p hpmem hpeq] at hr
    exact walkAt_avoid fs pkg.root other.root true _ hwf hanc htoml
      (fun _ heq => hproper heq.symm) r hr hcon

def c9_pkg : Package :=
  { package_id := ⟨"a", (1, 0, 0), 0⟩, root := ["p"], include_pats := [],
    exclude_pats := [],
    summary := { package_id := ⟨"a", (1, 0, 0), 0⟩, dependencies := [], features := [] } }

def c9_other : Package :=
  { package_id := ⟨"b", (1, 0, 0), 0⟩, root := ["p", "sub"], include_pats := [],
    exclude_pats := [],
    summary := { package_id := ⟨"b", (1, 0, 0), 0⟩, dependencies := [], features := [] } }

def c9_fs : FsTree :=
  .dir [("p", .dir [
    ("Cargo.toml", .file (some 1)),
    ("src", .dir [("main.rs", .file (some 2))]),
    ("sub", .dir [("Cargo.toml", .file (some 3)), ("lib.rs", .file (some 4))])])]

def c9_src : PathSource :=
  { id := 0, path := ["p"], updated := true, packages := [c9_pkg, c9_other] }

theorem claim_C9_witness :
    ¬ (["p", "sub"] <+: ["p", "src", "main.rs"]) :=
  claim_C9 c9_src c9_fs (fun _ => none) c9_pkg c9_other
    (by decide) (by simp [c9_src]) (by decide) (by decide) (by decide) (by decide)
    (by
      intro p hp heq
      simp [c9_src] at hp
      rcases hp with rfl | rfl
      · rfl
      · exact absurd heq (by decide))
    ["p", "src", "main.rs"] (by decide)

theorem claim_C8_witness :
    parse_manifest (fun _ => .ok ()) ["p", "Cargo.toml"]
        { cache := [(["p"], 0)], nextId := 1, parses := 1 } =
      (.ok 0, { cache := [(["p"], 0)], nextId := 1, parses := 1 }) ∧
    (({ cache := [(["p"], 0)], nextId := 1, parses := 1 } : CacheState)).parses ≤
      ({ cache := [], nextId := 0, parses := 0 } : CacheState).parses + 1 :=
  claim_C8 (fun _ => .ok ()) ["p", "Cargo.toml"] ["p", "Cargo.toml"]
    { cache := [], nextId := 0, parses := 0 }
    { cache := [(["p"], 0)], nextId := 1, parses := 1 } 0 rfl rfl
